import Mathlib

/-!
Verification of the flat vector store in `src/backend/src/flat_index.rs`.

Modelling choices (shallow embedding):
* The two on-disk files (index file and `.meta` counter sidecar) are byte
  lists; a byte is a `Nat` (writers only produce values `< 256`).  The
  filesystem state `FS` carries both files; `none` models an absent file.
* Machine integers (`u64`, `u32`) are `Nat` with explicit `% 2 ^ 64` /
  `% 2 ^ 32` at the points where the code casts or serialises.
* `f32` values are modelled as exact rationals `ℚ`.  The 4-byte
  little-endian `f32` codec of the `byteorder` crate and the `f32::sqrt`
  primitive are parameters of the model, bundled in `FloatModel`; the
  bit-level `write_f32`/`read_f32` round trip is the hypothesis
  `dec (enc x) = x` where a theorem needs it.
* Fallible operations return `Except IOError`; `IOError` mirrors the
  `std::io::ErrorKind` values the code produces or propagates.
* Paths are dropped: a `FlatIndex` handle keeps only its dimension, and
  every operation takes the filesystem state explicitly.
-/

/-- Error kinds produced or propagated by `flat_index.rs`:
`InvalidInput "dimension mismatch"`, `NotFound` from `File::open`,
`UnexpectedEof` from `read_exact`/`read_u64`/`read_f32`, and
`InvalidData` with a message from header validation. -/
inductive IOError where
  | dimensionMismatch
  | notFound
  | unexpectedEof
  | invalidData (msg : String)
  deriving DecidableEq

/-- State of the two files of a store: the index file and the `.meta`
counter sidecar.  `none` models a file that does not exist. -/
structure FS where
  index : Option (List Nat)
  meta : Option (List Nat)
  deriving DecidableEq

/-- Model of the `f32` primitives the code uses: the 4-byte little-endian
codec of the `byteorder` crate (`write_f32`/`read_f32`) and `f32::sqrt`.
`enc_len` records that the codec always writes exactly 4 bytes. -/
structure FloatModel where
  enc : ℚ → List Nat
  dec : List Nat → ℚ
  sqrt : ℚ → ℚ
  enc_len : ∀ q, (enc q).length = 4

/-- Little-endian serialisation of `n` into `k` bytes, as done by
`write_u64::<LittleEndian>` (`k = 8`) and `write_u32::<LittleEndian>`
(`k = 4`); values are truncated modulo `2 ^ (8 * k)` like the Rust casts. -/
def encodeLE : Nat → Nat → List Nat
  | 0, _ => []
  | k + 1, n => n % 256 :: encodeLE k (n / 256)

/-- Little-endian deserialisation, as done by `read_u64::<LittleEndian>`
and `read_u32::<LittleEndian>` on a buffer of the right size. -/
def decodeLE : List Nat → Nat
  | [] => 0
  | b :: rest => b + 256 * decodeLE rest

/-- The store handle.  The Rust struct also carries the two paths; in the
model the filesystem state is passed explicitly instead. -/
structure FlatIndex where
  dim : Nat
  deriving DecidableEq

/-- The magic tag `b"RVIX"` (bytes of `R`, `V`, `I`, `X`). -/
def MAGIC : List Nat := [82, 86, 73, 88]

/-- The format version constant `VERSION: u32 = 1`. -/
def VERSION : Nat := 1

/-- The 12-byte header written on file creation:
magic, version (u32 LE), dimension (u32 LE, truncated by the `as u32` cast). -/
def header (dim : Nat) : List Nat :=
  MAGIC ++ encodeLE 4 VERSION ++ encodeLE 4 dim

/-- The bytes of one record: 8-byte little-endian id followed by the
encodings of the vector components, as written by `append`. -/
def encVec (c : FloatModel) : List ℚ → List Nat
  | [] => []
  | x :: xs => c.enc x ++ encVec c xs

/-- Bytes of a record `[id:u64 LE][vector: dim × f32 LE]`. -/
def recordBytes (c : FloatModel) (id : Nat) (v : List ℚ) : List Nat :=
  encodeLE 8 id ++ encVec c v

/-- Bytes of a record stream, record after record. -/
def encodeRecords (c : FloatModel) : List (Nat × List ℚ) → List Nat
  | [] => []
  | r :: rs => recordBytes c r.1 r.2 ++ encodeRecords c rs

/-- `FlatIndex::read_next_id`: open the meta file (`NotFound` if absent),
`read_exact` 8 bytes (`UnexpectedEof` if shorter), decode u64 LE. -/
def FlatIndex.read_next_id (fs : FS) : Except IOError Nat :=
  match fs.meta with
  | none => .error .notFound
  | some bs =>
      if bs.length < 8 then .error .unexpectedEof
      else .ok (decodeLE (bs.take 8))

/-- `FlatIndex::write_next_id`: recreate the meta file with the single
8-byte little-endian value (always rewritten in full). -/
def FlatIndex.write_next_id (fs : FS) (next_id : Nat) : FS :=
  { fs with meta := some (encodeLE 8 next_id) }

/-- `FlatIndex::append` (lines 84–111): dimension check, read the current
id from the counter, append `[id][vector]` to the index file (created
empty first when absent, per `OpenOptions::create(true).append(true)`),
then persist `id + 1` to the counter. -/
def FlatIndex.append (c : FloatModel) (st : FlatIndex) (fs : FS) (vec : List ℚ) :
    Except IOError (Nat × FS) :=
  if vec.length ≠ st.dim then .error .dimensionMismatch
  else
    match FlatIndex.read_next_id fs with
    | .error e => .error e
    | .ok id =>
        let fs1 : FS := { fs with index := some (fs.index.getD [] ++ recordBytes c id vec) }
        .ok (id, FlatIndex.write_next_id fs1 (id + 1))

/-- The filesystem states an `append` call passes through, in order: the
initial state, the state after the record bytes are written and flushed
(counter untouched), and the state after the counter is rewritten.  On the
early-error paths no file is mutated. -/
def FlatIndex.appendTrace (c : FloatModel) (st : FlatIndex) (fs : FS) (vec : List ℚ) :
    List FS :=
  if vec.length ≠ st.dim then [fs]
  else
    match FlatIndex.read_next_id fs with
    | .error _ => [fs]
    | .ok id =>
        let fs1 : FS := { fs with index := some (fs.index.getD [] ++ recordBytes c id vec) }
        [fs, fs1, FlatIndex.write_next_id fs1 (id + 1)]

/-- Local fn `dot` inside `search`: zip, multiply pointwise, sum. -/
def FlatIndex.dot (a b : List ℚ) : ℚ :=
  ((a.zip b).map fun p => p.1 * p.2).sum

/-- Local fn `norm` inside `search`: square root of the self dot product
(the `sqrt` primitive comes from the float model). -/
def FlatIndex.norm (c : FloatModel) (a : List ℚ) : ℚ :=
  c.sqrt (FlatIndex.dot a a)

/-- Local fn `cosine_distance` inside `search` (lines 137–146): `1.0` when
either norm is zero, otherwise `1 - dot/(na*nb)`. -/
def FlatIndex.cosine_distance (c : FloatModel) (a b : List ℚ) : ℚ :=
  if FlatIndex.norm c a = 0 ∨ FlatIndex.norm c b = 0 then 1
  else 1 - FlatIndex.dot a b / (FlatIndex.norm c a * FlatIndex.norm c b)

/-- One step of the stable sort: place `x` after every element whose
distance is `≤ x`'s, before the first strictly greater one. -/
def insEq (x : Nat × ℚ) : List (Nat × ℚ) → List (Nat × ℚ)
  | [] => [x]
  | y :: ys => if y.2 ≤ x.2 then y :: insEq x ys else x :: y :: ys

/-- Model of the stable `Vec::sort_by` on `partial_cmp` of the distance
(`ℚ` comparison is total, so `unwrap_or(Equal)` never fires): insert the
elements left to right, each after the already placed equal-distance ones,
which is exactly the stable sort by distance. -/
def sortBest (l : List (Nat × ℚ)) : List (Nat × ℚ) :=
  l.foldl (fun acc x => insEq x acc) []

/-- The best-set insertion of `search` (lines 167–177): push and re-sort
while fewer than `top_k` entries are held; once full, replace the last
(worst) entry only when the new distance is strictly smaller. -/
def FlatIndex.insertBest (top_k : Nat) (best : List (Nat × ℚ)) (p : Nat × ℚ) :
    List (Nat × ℚ) :=
  if best.length < top_k then sortBest (best ++ [p])
  else
    match best.getLast? with
    | some w => if p.2 < w.2 then sortBest (best.dropLast ++ [p]) else best
    | none => best

/-- Sequential `read_f32` of `n` components (lines 160–163): each read
takes 4 bytes and fails with `UnexpectedEof` when fewer remain. -/
def FlatIndex.readF32s (c : FloatModel) : Nat → List Nat → Option (List ℚ)
  | 0, _ => some []
  | n + 1, bs =>
      if bs.length < 4 then none
      else (FlatIndex.readF32s c n (bs.drop 4)).map (c.dec (bs.take 4) :: ·)

/-- The scan loop of `search` (lines 151–178): `read_u64` breaks on
`UnexpectedEof` (which also swallows a trailing partial id of 1–7 bytes),
a failing component read propagates the error, and each full record is
offered to the best-set.  After a successful vector read the reader stands
exactly `8 + 4 * dim` bytes further, hence the `drop`. -/
def FlatIndex.searchLoop (c : FloatModel) (dim : Nat) (query : List ℚ) (top_k : Nat)
    (best : List (Nat × ℚ)) (bs : List Nat) : Except IOError (List (Nat × ℚ)) :=
  if h : bs.length < 8 then .ok best
  else
    match FlatIndex.readF32s c dim (bs.drop 8) with
    | none => .error .unexpectedEof
    | some vec =>
        FlatIndex.searchLoop c dim query top_k
          (FlatIndex.insertBest top_k best
            (decodeLE (bs.take 8), FlatIndex.cosine_distance c query vec))
          (bs.drop (8 + 4 * dim))
termination_by bs.length
decreasing_by
  simp only [List.length_drop]
  omega

/-- `FlatIndex::search` (lines 113–181): dimension check, `top_k == 0`
short-circuit before any file access, open the index file, skip the
12-byte header (a seek past the end just makes the first read hit EOF,
like `drop` on a short list), then run the scan loop with an empty
best-set. -/
def FlatIndex.search (c : FloatModel) (st : FlatIndex) (fs : FS) (query : List ℚ)
    (top_k : Nat) : Except IOError (List (Nat × ℚ)) :=
  if query.length ≠ st.dim then .error .dimensionMismatch
  else if top_k = 0 then .ok []
  else
    match fs.index with
    | none => .error .notFound
    | some bs => FlatIndex.searchLoop c st.dim query top_k [] (bs.drop 12)

/-- The record-reading skeleton of the scan loop (lines 151–163), with the
ranking stripped: the full scan of the file, returning every complete
record in file order.  EOF handling is identical to `searchLoop`. -/
def FlatIndex.readRecords (c : FloatModel) (dim : Nat) (bs : List Nat) :
    Except IOError (List (Nat × List ℚ)) :=
  if h : bs.length < 8 then .ok []
  else
    match FlatIndex.readF32s c dim (bs.drop 8) with
    | none => .error .unexpectedEof
    | some vec =>
        (FlatIndex.readRecords c dim (bs.drop (8 + 4 * dim))).map
          ((decodeLE (bs.take 8), vec) :: ·)
termination_by bs.length
decreasing_by
  simp only [List.length_drop]
  omega

/-- The loop of `scan_next_id` (lines 211–227): `read_u64` breaks on
`UnexpectedEof` (so 1–7 trailing bytes end the scan silently), then
`read_exact` of `dim * 4` raw bytes fails with `UnexpectedEof` when fewer
remain; each complete record bumps the count. -/
def FlatIndex.scanLoop (dim count : Nat) (bs : List Nat) : Except IOError Nat :=
  if h : bs.length < 8 then .ok count
  else if bs.length - 8 < 4 * dim then .error .unexpectedEof
  else FlatIndex.scanLoop dim (count + 1) (bs.drop (8 + 4 * dim))
termination_by bs.length
decreasing_by
  simp only [List.length_drop]
  omega

/-- `FlatIndex::scan_next_id` (lines 203–230): seek past the header and
count complete records; the next id is the count plus one. -/
def FlatIndex.scan_next_id (dim : Nat) (bs : List Nat) : Except IOError Nat :=
  (FlatIndex.scanLoop dim 0 (bs.drop 12)).map (· + 1)

/-- `FlatIndex::open_or_create` (lines 17–78).  Index file absent: create
it with the header and initialise the counter to 1 only when the sidecar
is itself absent.  Index file present: validate magic, version and
dimension in read order (each short read surfaces as `UnexpectedEof`), and
rebuild the counter from the record count only when the sidecar is absent. -/
def FlatIndex.open_or_create (dim : Nat) (fs : FS) :
    Except IOError (FlatIndex × FS) :=
  match fs.index with
  | none =>
      let fs1 : FS := { fs with index := some (header dim) }
      if fs.meta = none then .ok (⟨dim⟩, FlatIndex.write_next_id fs1 1)
      else .ok (⟨dim⟩, fs1)
  | some bs =>
      if bs.length < 4 then .error .unexpectedEof
      else if bs.take 4 ≠ MAGIC then .error (.invalidData "bad index magic")
      else if bs.length < 8 then .error .unexpectedEof
      else if decodeLE ((bs.drop 4).take 4) ≠ VERSION then
        .error (.invalidData "unsupported index version")
      else if bs.length < 12 then .error .unexpectedEof
      else if decodeLE ((bs.drop 8).take 4) ≠ dim then
        .error (.invalidData "dim mismatch with existing index")
      else
        match fs.meta with
        | some _ => .ok (⟨dim⟩, fs)
        | none =>
            match FlatIndex.scan_next_id dim bs with
            | .error e => .error e
            | .ok next_id => .ok (⟨dim⟩, FlatIndex.write_next_id fs next_id)

/-- One step of a store session: an `append` with the given vector, or a
close followed by `open_or_create` on the same path and dimension. -/
inductive StoreOp where
  | append (v : List ℚ)
  | reopen
  deriving DecidableEq

/-- Number of `append` steps in a session. -/
def countAppends : List StoreOp → Nat
  | [] => 0
  | .append _ :: ops => countAppends ops + 1
  | .reopen :: ops => countAppends ops

/-- The vectors handed to the `append` steps of a session, in order. -/
def appendVecs : List StoreOp → List (List ℚ)
  | [] => []
  | .append v :: ops => v :: appendVecs ops
  | .reopen :: ops => appendVecs ops

/-- Run a session against the store, collecting the ids the appends
return; any error aborts the session. -/
def runOps (c : FloatModel) (dim : Nat) : List StoreOp → FS → Except IOError (List Nat × FS)
  | [], fs => .ok ([], fs)
  | .append v :: ops, fs =>
      match FlatIndex.append c ⟨dim⟩ fs v with
      | .error e => .error e
      | .ok (id, fs') =>
          match runOps c dim ops fs' with
          | .error e => .error e
          | .ok (ids, fs'') => .ok (id :: ids, fs'')
  | .reopen :: ops, fs =>
      match FlatIndex.open_or_create dim fs with
      | .error e => .error e
      | .ok (_, fs') => runOps c dim ops fs'

/-- A concrete float model for witnesses: a toy codec that is injective
on small nonnegative integer values (numerator byte) and the identity in
place of `sqrt`.  The theorems hold for every model; witnesses only need
one that satisfies the round-trip hypotheses at the values they use. -/
def simpleModel : FloatModel where
  enc q := [q.num.toNat % 256, 0, 0, 0]
  dec bs :=
    match bs with
    | a :: _ => (a : ℚ)
    | _ => 0
  sqrt q := q
  enc_len _ := rfl

/-- Well-formedness of a record list with respect to the store dimension
and the float codec: ids fit in a `u64`, every vector has the declared
dimension, and the codec round-trips on every stored component (the
bit-for-bit `f32` write/read round trip). -/
def RecordsWF (c : FloatModel) (dim : Nat) (rs : List (Nat × List ℚ)) : Prop :=
  ∀ r ∈ rs, r.1 < 2 ^ 64 ∧ r.2.length = dim ∧ ∀ x ∈ r.2, c.dec (c.enc x) = x

instance (c : FloatModel) (dim : Nat) (rs : List (Nat × List ℚ)) :
    Decidable (RecordsWF c dim rs) := by
  unfold RecordsWF
  infer_instance

/-! ## Supporting lemmas: byte codec and encodings -/

theorem length_encodeLE (k n : Nat) : (encodeLE k n).length = k := by
  induction k generalizing n with
  | zero => rfl
  | succ k ih => simp [encodeLE, ih]

theorem decodeLE_encodeLE (k n : Nat) : decodeLE (encodeLE k n) = n % 256 ^ k := by
  induction k generalizing n with
  | zero => simp [encodeLE, decodeLE, Nat.mod_one]
  | succ k ih =>
      have hp : (256 : Nat) ^ (k + 1) = 256 * 256 ^ k := pow_succ' 256 k
      simp [encodeLE, decodeLE, ih, hp, Nat.mod_mul]

theorem take_encodeLE (k n : Nat) : (encodeLE k n).take k = encodeLE k n :=
  List.take_of_length_le (le_of_eq (length_encodeLE k n))

theorem decodeLE_take_encodeLE {n : Nat} (hn : n < 2 ^ 64) :
    decodeLE ((encodeLE 8 n).take 8) = n := by
  rw [take_encodeLE, decodeLE_encodeLE]
  exact Nat.mod_eq_of_lt (by norm_num at hn ⊢; omega)

theorem encodeLE_inj {k m n : Nat} (hm : m < 256 ^ k) (hn : n < 256 ^ k)
    (h : encodeLE k m = encodeLE k n) : m = n := by
  have h2 := congrArg decodeLE h
  rwa [decodeLE_encodeLE, decodeLE_encodeLE, Nat.mod_eq_of_lt hm, Nat.mod_eq_of_lt hn] at h2

theorem length_encVec (c : FloatModel) (v : List ℚ) : (encVec c v).length = 4 * v.length := by
  induction v with
  | nil => rfl
  | cons x xs ih => simp [encVec, c.enc_len, ih]; omega

theorem length_recordBytes (c : FloatModel) (id : Nat) (v : List ℚ) :
    (recordBytes c id v).length = 8 + 4 * v.length := by
  simp [recordBytes, length_encodeLE, length_encVec]

theorem length_header (dim : Nat) : (header dim).length = 12 := by
  simp [header, MAGIC, length_encodeLE]

theorem header_facts (dim : Nat) (body : List Nat) :
    (header dim ++ body).take 4 = MAGIC
    ∧ ((header dim ++ body).drop 4).take 4 = encodeLE 4 VERSION
    ∧ ((header dim ++ body).drop 8).take 4 = encodeLE 4 dim
    ∧ (header dim ++ body).drop 12 = body
    ∧ ¬ (header dim ++ body).length < 12 := by
  have hassoc : header dim ++ body
      = MAGIC ++ (encodeLE 4 VERSION ++ (encodeLE 4 dim ++ body)) := by
    simp [header]
  have hm4 : MAGIC.length = 4 := rfl
  have hd4 : (header dim ++ body).drop 4 = encodeLE 4 VERSION ++ (encodeLE 4 dim ++ body) := by
    rw [hassoc, List.drop_left' hm4]
  have hd8 : (header dim ++ body).drop 8 = encodeLE 4 dim ++ body := by
    have : (8 : Nat) = 4 + 4 := rfl
    rw [this, ← List.drop_drop, hd4, List.drop_left' (length_encodeLE 4 VERSION)]
  have hd12 : (header dim ++ body).drop 12 = body := by
    have : (12 : Nat) = 8 + 4 := rfl
    rw [this, ← List.drop_drop, hd8, List.drop_left' (length_encodeLE 4 dim)]
  refine ⟨?_, ?_, ?_, hd12, ?_⟩
  · rw [hassoc, List.take_left' hm4]
  · rw [hd4, List.take_left' (length_encodeLE 4 VERSION)]
  · rw [hd8, List.take_left' (length_encodeLE 4 dim)]
  · simp [length_header]

theorem decodeLE_version : decodeLE (encodeLE 4 VERSION) = VERSION := by
  rw [decodeLE_encodeLE]
  rfl

theorem decodeLE_dim {dim : Nat} (hdim : dim < 2 ^ 32) :
    decodeLE (encodeLE 4 dim) = dim := by
  rw [decodeLE_encodeLE]
  exact Nat.mod_eq_of_lt (by norm_num at hdim ⊢; omega)

theorem decodeLE_encodeLE64 {n : Nat} (hn : n < 2 ^ 64) : decodeLE (encodeLE 8 n) = n := by
  rw [decodeLE_encodeLE]
  exact Nat.mod_eq_of_lt (by norm_num at hn ⊢; omega)

theorem encodeRecords_append (c : FloatModel) (rs1 rs2 : List (Nat × List ℚ)) :
    encodeRecords c (rs1 ++ rs2) = encodeRecords c rs1 ++ encodeRecords c rs2 := by
  induction rs1 with
  | nil => rfl
  | cons r rs ih => simp [encodeRecords, ih]

/-! ## Supporting lemmas: parsing the record stream -/

theorem readF32s_encVec (c : FloatModel) (v : List ℚ) (rest : List Nat)
    (hrt : ∀ x ∈ v, c.dec (c.enc x) = x) :
    FlatIndex.readF32s c v.length (encVec c v ++ rest) = some v := by
  induction v with
  | nil => rfl
  | cons x xs ih =>
      have h4 : (c.enc x).length = 4 := c.enc_len x
      have hassoc : encVec c (x :: xs) ++ rest = c.enc x ++ (encVec c xs ++ rest) := by
        simp [encVec]
      show FlatIndex.readF32s c (xs.length + 1) (encVec c (x :: xs) ++ rest) = some (x :: xs)
      rw [hassoc]
      simp only [FlatIndex.readF32s]
      rw [if_neg (by simp [h4]), List.take_left' h4, List.drop_left' h4,
        ih (fun y hy => hrt y (List.mem_cons_of_mem x hy)), hrt x (List.mem_cons_self x xs)]
      rfl

theorem readF32s_encVec' (c : FloatModel) {dim : Nat} (v : List ℚ) (rest : List Nat)
    (hl : v.length = dim) (hrt : ∀ x ∈ v, c.dec (c.enc x) = x) :
    FlatIndex.readF32s c dim (encVec c v ++ rest) = some v := by
  subst hl
  exact readF32s_encVec c v rest hrt

theorem readRecords_encodeRecords (c : FloatModel) (dim : Nat)
    (rs : List (Nat × List ℚ)) (h : RecordsWF c dim rs) :
    FlatIndex.readRecords c dim (encodeRecords c rs) = .ok rs := by
  induction rs with
  | nil => rw [FlatIndex.readRecords]; simp [encodeRecords]
  | cons r rs ih =>
      obtain ⟨hid, hlen, hrt⟩ := h r (List.mem_cons_self r rs)
      have h8 : (encodeLE 8 r.1).length = 8 := length_encodeLE 8 r.1
      have hassoc : encodeRecords c (r :: rs)
          = encodeLE 8 r.1 ++ (encVec c r.2 ++ encodeRecords c rs) := by
        simp [encodeRecords, recordBytes]
      have hrb : (recordBytes c r.1 r.2).length = 8 + 4 * dim := by
        rw [length_recordBytes, hlen]
      rw [FlatIndex.readRecords]
      rw [dif_neg (by rw [hassoc]; simp [h8])]
      rw [hassoc, List.take_left' h8, List.drop_left' h8]
      rw [readF32s_encVec' c r.2 _ hlen hrt]
      have hdrop : (encodeLE 8 r.1 ++ (encVec c r.2 ++ encodeRecords c rs)).drop
          (8 + 4 * dim) = encodeRecords c rs := by
        rw [← hassoc]
        have h2 : encodeRecords c (r :: rs) = recordBytes c r.1 r.2 ++ encodeRecords c rs := rfl
        rw [h2]
        exact List.drop_left' hrb
      rw [hdrop, ih (fun r' hr' => h r' (List.mem_cons_of_mem r hr'))]
      rw [decodeLE_encodeLE64 hid]
      rfl

theorem searchLoop_encodeRecords (c : FloatModel) (dim : Nat) (q : List ℚ) (k : Nat)
    (rs : List (Nat × List ℚ)) (h : RecordsWF c dim rs) (best : List (Nat × ℚ)) :
    FlatIndex.searchLoop c dim q k best (encodeRecords c rs)
      = .ok (rs.foldl
          (fun b r => FlatIndex.insertBest k b (r.1, FlatIndex.cosine_distance c q r.2)) best) := by
  induction rs generalizing best with
  | nil => rw [FlatIndex.searchLoop]; simp [encodeRecords]
  | cons r rs ih =>
      obtain ⟨hid, hlen, hrt⟩ := h r (List.mem_cons_self r rs)
      have h8 : (encodeLE 8 r.1).length = 8 := length_encodeLE 8 r.1
      have hassoc : encodeRecords c (r :: rs)
          = encodeLE 8 r.1 ++ (encVec c r.2 ++ encodeRecords c rs) := by
        simp [encodeRecords, recordBytes]
      rw [FlatIndex.searchLoop]
      rw [dif_neg (by rw [hassoc]; simp [h8])]
      rw [hassoc, List.take_left' h8, List.drop_left' h8]
      rw [readF32s_encVec' c r.2 _ hlen hrt]
      have hrb : (recordBytes c r.1 r.2).length = 8 + 4 * dim := by
        rw [length_recordBytes, hlen]
      have hdrop : (encodeLE 8 r.1 ++ (encVec c r.2 ++ encodeRecords c rs)).drop
          (8 + 4 * dim) = encodeRecords c rs := by
        rw [← hassoc]
        have h2 : encodeRecords c (r :: rs) = recordBytes c r.1 r.2 ++ encodeRecords c rs := rfl
        rw [h2]
        exact List.drop_left' hrb
      rw [hdrop, decodeLE_encodeLE64 hid]
      have ih' := ih (fun r' hr' => h r' (List.mem_cons_of_mem r hr'))
        (FlatIndex.insertBest k best (r.1, FlatIndex.cosine_distance c q r.2))
      simpa using ih'

/-! ## Supporting lemmas: the counter-rebuild scan -/

theorem scanLoop_short (dim count : Nat) (t : List Nat) (h : t.length < 8) :
    FlatIndex.scanLoop dim count t = .ok count := by
  rw [FlatIndex.scanLoop]
  exact dif_pos h

theorem scanLoop_partial_vector (dim count : Nat) (t : List Nat)
    (h8 : ¬ t.length < 8) (hv : t.length - 8 < 4 * dim) :
    FlatIndex.scanLoop dim count t = .error .unexpectedEof := by
  rw [FlatIndex.scanLoop]
  rw [dif_neg h8, if_pos hv]

theorem scanLoop_encodeRecords_append (c : FloatModel) (dim : Nat)
    (rs : List (Nat × List ℚ)) (t : List Nat) (hWF : ∀ r ∈ rs, r.2.length = dim)
    (count : Nat) :
    FlatIndex.scanLoop dim count (encodeRecords c rs ++ t)
      = FlatIndex.scanLoop dim (count + rs.length) t := by
  induction rs generalizing count with
  | nil => simp [encodeRecords]
  | cons r rs ih =>
      have hlen : r.2.length = dim := hWF r (List.mem_cons_self r rs)
      have hrb : (recordBytes c r.1 r.2).length = 8 + 4 * dim := by
        rw [length_recordBytes, hlen]
      have hassoc : encodeRecords c (r :: rs) ++ t
          = recordBytes c r.1 r.2 ++ (encodeRecords c rs ++ t) := by
        simp [encodeRecords]
      have hlong : (encodeRecords c (r :: rs) ++ t).length
          = 8 + 4 * dim + (encodeRecords c rs ++ t).length := by
        rw [hassoc]; simp [hrb]
      rw [FlatIndex.scanLoop]
      rw [dif_neg (by rw [hlong]; omega), if_neg (by rw [hlong]; omega)]
      rw [hassoc, List.drop_left' hrb,
        ih (fun r' hr' => hWF r' (List.mem_cons_of_mem r hr'))]
      have : count + 1 + rs.length = count + (rs.length + 1) := by omega
      rw [this]
      rfl

/-! ## Supporting lemmas: the stable sort -/

theorem insEq_nil (x : Nat × ℚ) : insEq x [] = [x] := rfl

theorem insEq_cons (x y : Nat × ℚ) (ys : List (Nat × ℚ)) :
    insEq x (y :: ys) = if y.2 ≤ x.2 then y :: insEq x ys else x :: y :: ys := rfl

theorem insEq_perm (x : Nat × ℚ) (l : List (Nat × ℚ)) : (insEq x l).Perm (x :: l) := by
  induction l with
  | nil => exact List.Perm.refl _
  | cons y ys ih =>
      rw [insEq_cons]
      split
      · exact (ih.cons y).trans (List.Perm.swap x y ys)
      · exact List.Perm.refl _

theorem mem_insEq {x p : Nat × ℚ} {l : List (Nat × ℚ)} :
    p ∈ insEq x l ↔ p = x ∨ p ∈ l := by
  rw [(insEq_perm x l).mem_iff, List.mem_cons]

theorem insEq_sorted {x : Nat × ℚ} {l : List (Nat × ℚ)}
    (hs : l.Sorted fun a b => a.2 ≤ b.2) :
    (insEq x l).Sorted fun a b => a.2 ≤ b.2 := by
  induction l with
  | nil => simp [insEq_nil]
  | cons y ys ih =>
      rw [List.sorted_cons] at hs
      obtain ⟨hy, hys⟩ := hs
      rw [insEq_cons]
      split
      · rename_i hle
        rw [List.sorted_cons]
        refine ⟨?_, ih hys⟩
        intro b hb
        rcases mem_insEq.mp hb with rfl | hb
        · exact hle
        · exact hy b hb
      · rename_i hgt
        have hlt : x.2 ≤ y.2 := le_of_lt (not_le.mp hgt)
        rw [List.sorted_cons]
        constructor
        · intro b hb
          rcases List.mem_cons.mp hb with rfl | hb
          · exact hlt
          · exact le_trans hlt (hy b hb)
        · exact List.sorted_cons.mpr ⟨hy, hys⟩

theorem sortBest_append_singleton (l : List (Nat × ℚ)) (x : Nat × ℚ) :
    sortBest (l ++ [x]) = insEq x (sortBest l) := by
  simp [sortBest, List.foldl_append]

theorem sortBest_sorted (l : List (Nat × ℚ)) :
    (sortBest l).Sorted fun a b => a.2 ≤ b.2 := by
  suffices h : ∀ (l acc : List (Nat × ℚ)), (acc.Sorted fun a b => a.2 ≤ b.2) →
      ((l.foldl (fun acc x => insEq x acc) acc).Sorted fun a b => a.2 ≤ b.2) by
    exact h l [] (by simp)
  intro l
  induction l with
  | nil => intro acc h; simpa using h
  | cons x xs ih => intro acc h; exact ih _ (insEq_sorted h)

theorem sortBest_perm (l : List (Nat × ℚ)) : (sortBest l).Perm l := by
  suffices h : ∀ (l acc : List (Nat × ℚ)),
      (l.foldl (fun acc x => insEq x acc) acc).Perm (acc ++ l) by
    simpa using h l []
  intro l
  induction l with
  | nil => intro acc; simp
  | cons x xs ih =>
      intro acc
      refine (ih (insEq x acc)).trans ?_
      refine ((insEq_perm x acc).append_right xs).trans ?_
      exact List.perm_middle.symm

theorem length_sortBest (l : List (Nat × ℚ)) : (sortBest l).length = l.length :=
  (sortBest_perm l).length_eq

theorem insEq_all_le {x : Nat × ℚ} {l : List (Nat × ℚ)} (h : ∀ y ∈ l, y.2 ≤ x.2) :
    insEq x l = l ++ [x] := by
  induction l with
  | nil => rfl
  | cons y ys ih =>
      rw [insEq_cons, if_pos (h y (List.mem_cons_self y ys)),
        ih fun z hz => h z (List.mem_cons_of_mem y hz)]
      rfl

theorem sortBest_of_sorted {l : List (Nat × ℚ)} (h : l.Sorted fun a b => a.2 ≤ b.2) :
    sortBest l = l := by
  induction l using List.reverseRecOn with
  | nil => rfl
  | append_singleton l x ih =>
      rw [List.Sorted, List.pairwise_append] at h
      obtain ⟨hl, _, hle⟩ := h
      rw [sortBest_append_singleton, ih hl,
        insEq_all_le fun y hy => hle y hy x (List.mem_singleton_self x)]

theorem insEq_eq (x : Nat × ℚ) (l : List (Nat × ℚ)) :
    insEq x l = l.takeWhile (fun y => decide (y.2 ≤ x.2))
      ++ x :: l.dropWhile (fun y => decide (y.2 ≤ x.2)) := by
  induction l with
  | nil => rfl
  | cons y ys ih =>
      rw [insEq_cons, List.takeWhile_cons, List.dropWhile_cons]
      by_cases hy : y.2 ≤ x.2
      · simp only [hy, if_pos, decide_eq_true_eq, if_true, ih]
        simp [hy]
      · simp [hy]

theorem takeWhile_take_comm {α : Type} (p : α → Bool) (l : List α) (n : Nat) :
    (l.take n).takeWhile p = (l.takeWhile p).take n := by
  induction l generalizing n with
  | nil => simp
  | cons a l ih =>
      cases n with
      | zero => simp
      | succ n =>
          rw [List.take_succ_cons, List.takeWhile_cons, List.takeWhile_cons]
          by_cases hp : p a
          · simp [hp, ih]
          · simp [hp]

theorem dropWhile_take_comm {α : Type} (p : α → Bool) (l : List α) (n : Nat) :
    (l.take n).dropWhile p = (l.dropWhile p).take (n - (l.takeWhile p).length) := by
  induction l generalizing n with
  | nil => simp
  | cons a l ih =>
      cases n with
      | zero => simp
      | succ n =>
          rw [List.take_succ_cons, List.dropWhile_cons, List.dropWhile_cons,
            List.takeWhile_cons]
          by_cases hp : p a
          · simp [hp, ih, Nat.succ_sub_succ]
          · simp [hp]

theorem le_length_takeWhile {α : Type} (p : α → Bool) (l : List α) (k : Nat)
    (hk : k ≤ l.length) (h : ∀ y ∈ l.take k, p y = true) :
    k ≤ (l.takeWhile p).length := by
  induction l generalizing k with
  | nil => simpa using hk
  | cons a l ih =>
      cases k with
      | zero => exact Nat.zero_le _
      | succ k =>
          have hpa : p a = true := h a (by simp)
          rw [List.takeWhile_cons, if_pos hpa]
          simp only [List.length_cons]
          have hrec := ih k (by simpa using hk) fun y hy => h y (by simp [hy])
          omega

theorem takeWhile_all_of_le_length {α : Type} (p : α → Bool) (l : List α) (k : Nat)
    (h : k ≤ (l.takeWhile p).length) : ∀ y ∈ l.take k, p y = true := by
  induction l generalizing k with
  | nil => simp
  | cons a l ih =>
      rw [List.takeWhile_cons] at h
      by_cases hpa : p a
      · rw [if_pos hpa] at h
        cases k with
        | zero => simp
        | succ k =>
            intro y hy
            rw [List.take_succ_cons] at hy
            rcases List.mem_cons.mp hy with rfl | hy
            · exact hpa
            · exact ih k (by simpa using h) y hy
      · rw [if_neg hpa] at h
        simp only [List.length_nil, Nat.le_zero] at h
        subst h
        simp

theorem getLast_take_eq {s : List (Nat × ℚ)} {k : Nat} (hk : 0 < k)
    (hks : k ≤ s.length) (hk1 : k - 1 < s.length) :
    (s.take k).getLast? = some (s.get ⟨k - 1, hk1⟩) := by
  rw [List.getLast?_eq_getElem?]
  have hbl : (s.take k).length = k := by rw [List.length_take]; omega
  rw [hbl, List.getElem?_take, if_pos (by omega), List.getElem?_eq_getElem hk1]
  simp [List.get_eq_getElem]

theorem sorted_take_le {s : List (Nat × ℚ)} (hs : s.Sorted fun a b => a.2 ≤ b.2)
    {k : Nat} (hk1 : k - 1 < s.length) :
    ∀ y ∈ s.take k, y.2 ≤ (s.get ⟨k - 1, hk1⟩).2 := by
  intro y hy
  obtain ⟨i, hi, hyi⟩ := List.mem_iff_getElem.mp hy
  have hlt : (s.take k).length = min k s.length := List.length_take k s
  have hik : i < k := by omega
  have his : i < s.length := by omega
  have hgy : y = s.get ⟨i, his⟩ := by
    rw [← hyi, List.getElem_take]
    simp [List.get_eq_getElem]
  rcases Nat.lt_or_ge i (k - 1) with hord | hord
  · have hrel := List.pairwise_iff_getElem.mp hs i (k - 1) his hk1 hord
    rw [hgy]
    simpa [List.get_eq_getElem] using hrel
  · have hik1 : i = k - 1 := by omega
    subst hik1
    rw [hgy]

theorem insertBest_take {k : Nat} (hk : 0 < k) (s : List (Nat × ℚ))
    (hs : s.Sorted fun a b => a.2 ≤ b.2) (x : Nat × ℚ) :
    FlatIndex.insertBest k (s.take k) x = (insEq x s).take k := by
  by_cases hlen : s.length < k
  · have hb : s.take k = s := List.take_of_length_le (le_of_lt hlen)
    have hlb : (insEq x s).length = s.length + 1 := by
      rw [(insEq_perm x s).length_eq, List.length_cons]
    rw [FlatIndex.insertBest, hb, if_pos hlen, sortBest_append_singleton,
      sortBest_of_sorted hs, List.take_of_length_le (by omega)]
  · push_neg at hlen
    have hbl : (s.take k).length = k := by rw [List.length_take]; omega
    have hne : ¬ (s.take k).length < k := by omega
    have hk1 : k - 1 < s.length := by omega
    rw [FlatIndex.insertBest, if_neg hne, getLast_take_eq hk hlen hk1]
    show (if x.2 < (s.get ⟨k - 1, hk1⟩).2 then sortBest ((s.take k).dropLast ++ [x])
      else s.take k) = (insEq x s).take k
    by_cases hx : x.2 < (s.get ⟨k - 1, hk1⟩).2
    · rw [if_pos hx]
      have hdl : (s.take k).dropLast = s.take (k - 1) := by
        rw [List.dropLast_eq_take, hbl, List.take_take]
        congr 1
        omega
      have hsk1 : (s.take (k - 1)).Sorted fun a b => a.2 ≤ b.2 :=
        List.Pairwise.sublist (List.take_sublist (k - 1) s) hs
      rw [sortBest_append_singleton, hdl, sortBest_of_sorted hsk1]
      have htw : (s.takeWhile fun y => decide (y.2 ≤ x.2)).length ≤ k - 1 := by
        by_contra hcon
        push_neg at hcon
        have hall := takeWhile_all_of_le_length (fun y => decide (y.2 ≤ x.2)) s k
          (by omega)
        have hmem : s.get ⟨k - 1, hk1⟩ ∈ s.take k := by
          have hbm : k - 1 < (s.take k).length := by omega
          have hmem0 := List.getElem_mem hbm
          rw [List.getElem_take] at hmem0
          simpa [List.get_eq_getElem] using hmem0
        have := hall _ hmem
        rw [decide_eq_true_eq] at this
        exact absurd this (not_le.mpr hx)
      rw [insEq_eq x s, insEq_eq x (s.take (k - 1))]
      rw [takeWhile_take_comm, dropWhile_take_comm,
        List.take_of_length_le htw, List.take_append_eq_append_take,
        List.take_of_length_le (show (s.takeWhile fun y => decide (y.2 ≤ x.2)).length ≤ k by omega)]
      have hsplit : k - (s.takeWhile fun y => decide (y.2 ≤ x.2)).length
          = (k - 1 - (s.takeWhile fun y => decide (y.2 ≤ x.2)).length) + 1 := by omega
      rw [hsplit, List.take_succ_cons]
    · rw [if_neg hx]
      have hle : (s.get ⟨k - 1, hk1⟩).2 ≤ x.2 := not_lt.mp hx
      have htw : k ≤ (s.takeWhile fun y => decide (y.2 ≤ x.2)).length := by
        apply le_length_takeWhile _ s k hlen
        intro y hy
        rw [decide_eq_true_eq]
        exact le_trans (sorted_take_le hs hk1 y hy) hle
      rw [insEq_eq x s, List.take_append_eq_append_take]
      have h0 : k - (s.takeWhile fun y => decide (y.2 ≤ x.2)).length = 0 := by omega
      rw [h0, List.take_zero, List.append_nil]
      have hpre : s.takeWhile (fun y => decide (y.2 ≤ x.2))
          = s.take (s.takeWhile fun y => decide (y.2 ≤ x.2)).length :=
        List.prefix_iff_eq_take.mp (List.takeWhile_prefix _)
      rw [hpre, List.take_take]
      congr 1
      omega

theorem foldl_insertBest {k : Nat} (hk : 0 < k) (ps : List (Nat × ℚ)) :
    ps.foldl (FlatIndex.insertBest k) [] = (sortBest ps).take k := by
  suffices h : ∀ (ps seen : List (Nat × ℚ)),
      ps.foldl (FlatIndex.insertBest k) ((sortBest seen).take k)
        = (sortBest (seen ++ ps)).take k by
    have hinst := h ps []
    rwa [show sortBest ([] : List (Nat × ℚ)) = [] from rfl, List.take_nil,
      List.nil_append] at hinst
  intro ps
  induction ps with
  | nil => intro seen; simp
  | cons p ps ih =>
      intro seen
      rw [List.foldl_cons, insertBest_take hk (sortBest seen) (sortBest_sorted seen) p,
        ← sortBest_append_singleton, ih (seen ++ [p])]
      simp

/-! ## Supporting lemmas: file-level operations -/

theorem read_next_id_encodeLE (fs : FS) {m : Nat} (hmeta : fs.meta = some (encodeLE 8 m))
    (hm : m < 2 ^ 64) : FlatIndex.read_next_id fs = .ok m := by
  rw [FlatIndex.read_next_id, hmeta]
  show (if (encodeLE 8 m).length < 8 then (.error .unexpectedEof : Except IOError Nat)
    else .ok (decodeLE ((encodeLE 8 m).take 8))) = .ok m
  rw [if_neg (by rw [length_encodeLE]; omega), decodeLE_take_encodeLE hm]

theorem append_ok (c : FloatModel) (dim : Nat) (fs : FS) (v : List ℚ) {m : Nat}
    (hv : v.length = dim) (hmeta : fs.meta = some (encodeLE 8 m)) (hm : m < 2 ^ 64) :
    FlatIndex.append c ⟨dim⟩ fs v
      = .ok (m, ⟨some (fs.index.getD [] ++ recordBytes c m v), some (encodeLE 8 (m + 1))⟩) := by
  rw [FlatIndex.append, if_neg (by simp [hv]), read_next_id_encodeLE fs hmeta hm]
  rfl

theorem RecordsWF_append {c : FloatModel} {dim : Nat} {rs1 rs2 : List (Nat × List ℚ)}
    (h1 : RecordsWF c dim rs1) (h2 : RecordsWF c dim rs2) :
    RecordsWF c dim (rs1 ++ rs2) :=
  fun r hr => (List.mem_append.mp hr).elim (h1 r) (h2 r)

theorem open_existing_with_meta (dim : Nat) (hdim : dim < 2 ^ 32) (body mb : List Nat) :
    FlatIndex.open_or_create dim ⟨some (header dim ++ body), some mb⟩
      = .ok (⟨dim⟩, ⟨some (header dim ++ body), some mb⟩) := by
  obtain ⟨h1, h2, h3, h4, h5⟩ := header_facts dim body
  dsimp only [FlatIndex.open_or_create]
  rw [if_neg (show ¬ (header dim ++ body).length < 4 by omega),
    if_neg (show ¬ (header dim ++ body).take 4 ≠ MAGIC by simp [h1]),
    if_neg (show ¬ (header dim ++ body).length < 8 by omega),
    if_neg (show ¬ decodeLE (((header dim ++ body).drop 4).take 4) ≠ VERSION by
      simp [h2, decodeLE_version]),
    if_neg h5,
    if_neg (show ¬ decodeLE (((header dim ++ body).drop 8).take 4) ≠ dim by
      simp [h3, decodeLE_dim hdim])]

theorem open_existing_no_meta (dim : Nat) (hdim : dim < 2 ^ 32) (body : List Nat)
    {n : Nat} (hscan : FlatIndex.scan_next_id dim (header dim ++ body) = .ok n) :
    FlatIndex.open_or_create dim ⟨some (header dim ++ body), none⟩
      = .ok (⟨dim⟩, ⟨some (header dim ++ body), some (encodeLE 8 n)⟩) := by
  obtain ⟨h1, h2, h3, h4, h5⟩ := header_facts dim body
  dsimp only [FlatIndex.open_or_create]
  rw [if_neg (show ¬ (header dim ++ body).length < 4 by omega),
    if_neg (show ¬ (header dim ++ body).take 4 ≠ MAGIC by simp [h1]),
    if_neg (show ¬ (header dim ++ body).length < 8 by omega),
    if_neg (show ¬ decodeLE (((header dim ++ body).drop 4).take 4) ≠ VERSION by
      simp [h2, decodeLE_version]),
    if_neg h5,
    if_neg (show ¬ decodeLE (((header dim ++ body).drop 8).take 4) ≠ dim by
      simp [h3, decodeLE_dim hdim])]
  rw [hscan]
  rfl

theorem scan_next_id_records (c : FloatModel) (dim : Nat) (rs : List (Nat × List ℚ))
    (t : List Nat) (hWFd : ∀ r ∈ rs, r.2.length = dim) (ht : t.length < 8) :
    FlatIndex.scan_next_id dim (header dim ++ (encodeRecords c rs ++ t))
      = .ok (rs.length + 1) := by
  rw [FlatIndex.scan_next_id, (header_facts dim _).2.2.2.1,
    scanLoop_encodeRecords_append c dim rs t hWFd 0, scanLoop_short dim _ t ht]
  simp [Except.map]

theorem dot_self_zero {b : List ℚ} (hb : ∀ x ∈ b, x = 0) : FlatIndex.dot b b = 0 := by
  induction b with
  | nil => rfl
  | cons x xs ih =>
      have hx : x = 0 := hb x (List.mem_cons_self x xs)
      have hdot : FlatIndex.dot (x :: xs) (x :: xs) = x * x + FlatIndex.dot xs xs := by
        simp [FlatIndex.dot]
      rw [hdot, hx, ih fun y hy => hb y (List.mem_cons_of_mem x hy)]
      ring

/-! ## Claim theorems -/

/-- C7: during search, a pair with a zero-norm operand (query or stored
vector) gets cosine distance exactly `1.0` and raises no error
(`cosine_distance` is total); in particular an all-zero stored vector
reports distance `1.0` against every query, including an all-zero query.
The only property of the `sqrt` primitive this needs is `sqrt 0 = 0`. -/
theorem cosine_distance_zero_norm (c : FloatModel) (a b : List ℚ)
    (hs : c.sqrt 0 = 0) :
    (FlatIndex.norm c a = 0 ∨ FlatIndex.norm c b = 0 →
      FlatIndex.cosine_distance c a b = 1)
    ∧ ((∀ x ∈ b, x = 0) → FlatIndex.cosine_distance c a b = 1) := by
  constructor
  · intro h
    rw [FlatIndex.cosine_distance, if_pos h]
  · intro hb
    have hnb : FlatIndex.norm c b = 0 := by
      rw [FlatIndex.norm, dot_self_zero hb, hs]
    rw [FlatIndex.cosine_distance, if_pos (Or.inr hnb)]

theorem cosine_distance_zero_norm_witness :
    FlatIndex.cosine_distance simpleModel [1, 2] [0, 0] = 1 :=
  (cosine_distance_zero_norm simpleModel [1, 2] [0, 0] rfl).2 (by decide)

/-- C8: with a handle bound to dimension `dim`, `append` of a vector of
any other length and `search` with a query of any other length both fail
with the dimension-mismatch error, and they do so for every filesystem
state (`fs` is arbitrary, even with both files absent), i.e. the length
check happens before any file access. -/
theorem dimension_mismatch_first (c : FloatModel) (dim : Nat) (fs : FS)
    (v q : List ℚ) (k : Nat) (hv : v.length ≠ dim) (hq : q.length ≠ dim) :
    FlatIndex.append c ⟨dim⟩ fs v = .error .dimensionMismatch
    ∧ FlatIndex.search c ⟨dim⟩ fs q k = .error .dimensionMismatch := by
  constructor
  · rw [FlatIndex.append, if_pos (by simpa using hv)]
  · rw [FlatIndex.search, if_pos (by simpa using hq)]

theorem dimension_mismatch_first_witness :
    FlatIndex.append simpleModel ⟨4⟩ ⟨none, none⟩ [1, 2, 3] = .error .dimensionMismatch
    ∧ FlatIndex.search simpleModel ⟨4⟩ ⟨none, none⟩ [1, 2, 3, 4, 5] 3
      = .error .dimensionMismatch :=
  dimension_mismatch_first simpleModel 4 ⟨none, none⟩ [1, 2, 3] [1, 2, 3, 4, 5] 3
    (by decide) (by decide)

/-- C9: `search` with `top_k = 0` returns the empty list without error for
every filesystem state (in particular regardless of how many records the
index holds), and `search` with any `top_k > 0` on a store whose index
file holds zero records (header only) also returns the empty list. -/
theorem search_topk_zero_and_empty_store (c : FloatModel) (dim : Nat) (fs : FS)
    (q : List ℚ) (k : Nat) (hq : q.length = dim) (hk : 0 < k) :
    FlatIndex.search c ⟨dim⟩ fs q 0 = .ok []
    ∧ (fs.index = some (header dim) → FlatIndex.search c ⟨dim⟩ fs q k = .ok []) := by
  constructor
  · rw [FlatIndex.search, if_neg (by simp [hq])]
    rfl
  · intro hidx
    rw [FlatIndex.search, if_neg (by simp [hq]), if_neg (by omega), hidx]
    show FlatIndex.searchLoop c dim q k [] ((header dim).drop 12) = .ok []
    have hdrop : (header dim).drop 12 = [] := by
      rw [← length_header dim, List.drop_length]
    rw [hdrop, FlatIndex.searchLoop]
    rfl

theorem search_topk_zero_and_empty_store_witness :
    FlatIndex.search simpleModel ⟨1⟩ ⟨some (header 1), none⟩ [1] 0 = .ok []
    ∧ FlatIndex.search simpleModel ⟨1⟩ ⟨some (header 1), none⟩ [1] 2 = .ok [] := by
  have h := search_topk_zero_and_empty_store simpleModel 1 ⟨some (header 1), none⟩ [1] 2
    (by decide) (by decide)
  exact ⟨h.1, h.2 rfl⟩

/-- C1: for a store of dimension `dim` whose index file holds the records
`rs`, a query of length `dim` and any `top_k > 0`, `search` returns
exactly the first `top_k` entries of the stable sort (by ascending cosine
distance, ties kept in scan order — `sortBest` is that stable sort) of all
records paired with their distances; the result is sorted ascending by
distance and has length `min top_k rs.length`.  The best-set insertion
rule of the claim is the definition `FlatIndex.insertBest`, and this
theorem shows its fold equals the stable-sorted prefix. -/
theorem search_returns_topk (c : FloatModel) (dim : Nat) (rs : List (Nat × List ℚ))
    (q : List ℚ) (k : Nat) (fs : FS)
    (hidx : fs.index = some (header dim ++ encodeRecords c rs))
    (hWF : RecordsWF c dim rs) (hq : q.length = dim) (hk : 0 < k) :
    FlatIndex.search c ⟨dim⟩ fs q k
      = .ok ((sortBest (rs.map fun r => (r.1, FlatIndex.cosine_distance c q r.2))).take k)
    ∧ ((sortBest (rs.map fun r => (r.1, FlatIndex.cosine_distance c q r.2))).take k).Sorted
        (fun a b => a.2 ≤ b.2)
    ∧ ((sortBest (rs.map fun r => (r.1, FlatIndex.cosine_distance c q r.2))).take k).length
      = min k rs.length := by
  refine ⟨?_, ?_, ?_⟩
  · have hfold := foldl_insertBest (k := k) hk
      (rs.map fun r => (r.1, FlatIndex.cosine_distance c q r.2))
    rw [List.foldl_map] at hfold
    rw [FlatIndex.search, if_neg (by simp [hq]), if_neg (by omega), hidx]
    show FlatIndex.searchLoop c dim q k [] ((header dim ++ encodeRecords c rs).drop 12) = _
    rw [(header_facts dim (encodeRecords c rs)).2.2.2.1,
      searchLoop_encodeRecords c dim q k rs hWF [], hfold]
  · exact List.Pairwise.sublist (List.take_sublist k _) (sortBest_sorted _)
  · rw [List.length_take, length_sortBest, List.length_map]

theorem search_returns_topk_witness :
    FlatIndex.search simpleModel ⟨1⟩
        ⟨some (header 1 ++ encodeRecords simpleModel [(1, [1]), (2, [2])]), none⟩ [1] 1
      = .ok ((sortBest ([(1, [1]), (2, [2])].map
          fun r => (r.1, FlatIndex.cosine_distance simpleModel [1] r.2))).take 1) :=
  (search_returns_topk simpleModel 1 [(1, [1]), (2, [2])] [1] 1
    ⟨some (header 1 ++ encodeRecords simpleModel [(1, [1]), (2, [2])]), none⟩
    rfl (by decide) rfl (by decide)).1

/-- C2: on a well-formed store, `append v` returns the id `m` read from
the counter, extends the index file with exactly the record `(m, v)`, and
a full scan of the resulting record stream (the read pattern of `search`,
lines 151–163) yields the old records followed by a record whose id is the
returned `m` and whose vector is exactly `v` — given the `f32` write/read
round trip `dec (enc x) = x` on the components of `v` (bit-for-bit float
equality of the little-endian codec). -/
theorem append_then_scan_roundtrip (c : FloatModel) (dim : Nat)
    (rs : List (Nat × List ℚ)) (m : Nat) (v : List ℚ)
    (hWF : RecordsWF c dim rs) (hm : m < 2 ^ 64) (hv : v.length = dim)
    (hrt : ∀ x ∈ v, c.dec (c.enc x) = x) :
    FlatIndex.append c ⟨dim⟩
        ⟨some (header dim ++ encodeRecords c rs), some (encodeLE 8 m)⟩ v
      = .ok (m, ⟨some (header dim ++ encodeRecords c (rs ++ [(m, v)])),
          some (encodeLE 8 (m + 1))⟩)
    ∧ FlatIndex.readRecords c dim (encodeRecords c (rs ++ [(m, v)]))
      = .ok (rs ++ [(m, v)]) := by
  have hWF1 : RecordsWF c dim [(m, v)] := by
    intro r hr
    rw [List.mem_singleton] at hr
    subst hr
    exact ⟨hm, hv, hrt⟩
  constructor
  · rw [append_ok c dim _ v hv rfl hm]
    have hbytes : (⟨some (header dim ++ encodeRecords c rs), some (encodeLE 8 m)⟩ :
        FS).index.getD [] ++ recordBytes c m v
        = header dim ++ encodeRecords c (rs ++ [(m, v)]) := by
      show header dim ++ encodeRecords c rs ++ recordBytes c m v = _
      rw [encodeRecords_append, List.append_assoc]
      simp [encodeRecords]
    rw [hbytes]
  · exact readRecords_encodeRecords c dim (rs ++ [(m, v)]) (RecordsWF_append hWF hWF1)

theorem append_then_scan_roundtrip_witness :
    FlatIndex.append simpleModel ⟨1⟩
        ⟨some (header 1 ++ encodeRecords simpleModel []), some (encodeLE 8 1)⟩ [1]
      = .ok (1, ⟨some (header 1 ++ encodeRecords simpleModel [(1, [1])]),
          some (encodeLE 8 2)⟩)
    ∧ FlatIndex.readRecords simpleModel 1 (encodeRecords simpleModel [(1, [1])])
      = .ok [(1, [1])] :=
  append_then_scan_roundtrip simpleModel 1 [] 1 [1] (by decide) (by decide) rfl (by decide)

/-- C4: in a successful `append`, the record bytes are appended to the
index file strictly before the counter is rewritten to `id + 1`: the trace
of filesystem states is exactly `[initial, record-written, counter-bumped]`,
the middle state still carries the old counter value, and in no state of
the trace does the counter hold `id + 1` while the record is absent from
the index file. -/
theorem append_record_before_counter (c : FloatModel) (dim : Nat) (fs : FS)
    (v : List ℚ) (m : Nat) (hv : v.length = dim)
    (hmeta : fs.meta = some (encodeLE 8 m)) (hm : m + 1 < 2 ^ 64) :
    FlatIndex.appendTrace c ⟨dim⟩ fs v
      = [fs,
          { fs with index := some (fs.index.getD [] ++ recordBytes c m v) },
          ⟨some (fs.index.getD [] ++ recordBytes c m v), some (encodeLE 8 (m + 1))⟩]
    ∧ FlatIndex.append c ⟨dim⟩ fs v
      = .ok (m, ⟨some (fs.index.getD [] ++ recordBytes c m v),
          some (encodeLE 8 (m + 1))⟩)
    ∧ ∀ s ∈ FlatIndex.appendTrace c ⟨dim⟩ fs v,
        s.meta = some (encodeLE 8 (m + 1)) →
        recordBytes c m v <:+ s.index.getD [] := by
  have hm0 : m < 2 ^ 64 := by omega
  have hpow : (256 : Nat) ^ 8 = 2 ^ 64 := by norm_num
  have htrace : FlatIndex.appendTrace c ⟨dim⟩ fs v
      = [fs,
          { fs with index := some (fs.index.getD [] ++ recordBytes c m v) },
          ⟨some (fs.index.getD [] ++ recordBytes c m v), some (encodeLE 8 (m + 1))⟩] := by
    rw [FlatIndex.appendTrace, if_neg (by simp [hv]), read_next_id_encodeLE fs hmeta hm0]
    rfl
  have hneq : encodeLE 8 m ≠ encodeLE 8 (m + 1) := by
    intro he
    have := encodeLE_inj (k := 8) (by omega) (by omega) he
    omega
  refine ⟨htrace, append_ok c dim fs v hv hmeta hm0, ?_⟩
  intro s hs hsm
  rw [htrace] at hs
  simp only [List.mem_cons, List.not_mem_nil, or_false] at hs
  rcases hs with rfl | rfl | rfl
  · rw [hmeta, Option.some_inj] at hsm
    exact absurd hsm hneq
  · replace hsm : fs.meta = some (encodeLE 8 (m + 1)) := hsm
    rw [hmeta, Option.some_inj] at hsm
    exact absurd hsm hneq
  · exact List.suffix_append _ _

theorem append_record_before_counter_witness :
    FlatIndex.appendTrace simpleModel ⟨1⟩ ⟨some (header 1), some (encodeLE 8 1)⟩ [2]
      = [⟨some (header 1), some (encodeLE 8 1)⟩,
          ⟨some (header 1 ++ recordBytes simpleModel 1 [2]), some (encodeLE 8 1)⟩,
          ⟨some (header 1 ++ recordBytes simpleModel 1 [2]), some (encodeLE 8 2)⟩]
    ∧ FlatIndex.append simpleModel ⟨1⟩ ⟨some (header 1), some (encodeLE 8 1)⟩ [2]
      = .ok (1, ⟨some (header 1 ++ recordBytes simpleModel 1 [2]),
          some (encodeLE 8 2)⟩)
    ∧ ∀ s ∈ FlatIndex.appendTrace simpleModel ⟨1⟩
        ⟨some (header 1), some (encodeLE 8 1)⟩ [2],
        s.meta = some (encodeLE 8 2) →
        recordBytes simpleModel 1 [2] <:+ s.index.getD [] :=
  append_record_before_counter simpleModel 1 ⟨some (header 1), some (encodeLE 8 1)⟩
    [2] 1 rfl rfl (by decide)

/-- C5: with the index file holding the `N` complete records `rs` and the
counter sidecar absent, `open_or_create` rebuilds and persists the next id
as `N + 1` (leaving the index file untouched), and an `append` immediately
after that reopen returns `N + 1`. -/
theorem open_rebuilds_missing_counter (c : FloatModel) (dim : Nat)
    (rs : List (Nat × List ℚ)) (v : List ℚ) (hdim : dim < 2 ^ 32)
    (hWFd : ∀ r ∈ rs, r.2.length = dim) (hN : rs.length + 1 < 2 ^ 64)
    (hv : v.length = dim) :
    FlatIndex.open_or_create dim ⟨some (header dim ++ encodeRecords c rs), none⟩
      = .ok (⟨dim⟩, ⟨some (header dim ++ encodeRecords c rs),
          some (encodeLE 8 (rs.length + 1))⟩)
    ∧ FlatIndex.append c ⟨dim⟩
        ⟨some (header dim ++ encodeRecords c rs), some (encodeLE 8 (rs.length + 1))⟩ v
      = .ok (rs.length + 1,
          ⟨some (header dim ++ encodeRecords c rs ++ recordBytes c (rs.length + 1) v),
            some (encodeLE 8 (rs.length + 1 + 1))⟩) := by
  have hscan : FlatIndex.scan_next_id dim (header dim ++ encodeRecords c rs)
      = .ok (rs.length + 1) := by
    have h := scan_next_id_records c dim rs [] hWFd (by simp)
    simpa using h
  constructor
  · exact open_existing_no_meta dim hdim _ hscan
  · exact append_ok c dim _ v hv rfl (by omega)

theorem open_rebuilds_missing_counter_witness :
    FlatIndex.open_or_create 1
        ⟨some (header 1 ++ encodeRecords simpleModel [(1, [4]), (2, [9])]), none⟩
      = .ok (⟨1⟩, ⟨some (header 1 ++ encodeRecords simpleModel [(1, [4]), (2, [9])]),
          some (encodeLE 8 3)⟩)
    ∧ FlatIndex.append simpleModel ⟨1⟩
        ⟨some (header 1 ++ encodeRecords simpleModel [(1, [4]), (2, [9])]),
          some (encodeLE 8 3)⟩ [7]
      = .ok (3, ⟨some (header 1 ++ encodeRecords simpleModel [(1, [4]), (2, [9])]
              ++ recordBytes simpleModel 3 [7]),
          some (encodeLE 8 4)⟩) :=
  open_rebuilds_missing_counter simpleModel 1 [(1, [4]), (2, [9])] [7]
    (by decide) (by decide) (by decide) rfl

/-- C6 (amended): the counter-rebuild scan succeeds on every index file
that ends exactly on a record boundary (the `t = []` case of the first
part), and it also silently succeeds — returning the count of the
preceding complete records plus one — when the file ends in a partial id
of 1 to 7 trailing bytes, because the `read_u64` EOF is treated as a clean
break; it fails with `UnexpectedEof` only when the trailing partial record
has a complete id but an incomplete vector. -/
theorem scan_next_id_eof_behaviour (c : FloatModel) (dim : Nat)
    (rs : List (Nat × List ℚ)) (t : List Nat)
    (hWFd : ∀ r ∈ rs, r.2.length = dim) :
    (t.length < 8 →
      FlatIndex.scan_next_id dim (header dim ++ (encodeRecords c rs ++ t))
        = .ok (rs.length + 1))
    ∧ (8 ≤ t.length → t.length < 8 + 4 * dim →
      FlatIndex.scan_next_id dim (header dim ++ (encodeRecords c rs ++ t))
        = .error .unexpectedEof) := by
  constructor
  · intro ht
    exact scan_next_id_records c dim rs t hWFd ht
  · intro h8 hlt
    rw [FlatIndex.scan_next_id, (header_facts dim _).2.2.2.1,
      scanLoop_encodeRecords_append c dim rs t hWFd 0,
      scanLoop_partial_vector dim _ t (by omega) (by omega)]
    rfl

theorem scan_next_id_eof_behaviour_witness :
    FlatIndex.scan_next_id 1
        (header 1 ++ (encodeRecords simpleModel [(1, [0])] ++ []))
      = .ok 2
    ∧ FlatIndex.scan_next_id 1
        (header 1 ++ (encodeRecords simpleModel [(1, [0])] ++ [9, 9, 9, 9, 9, 9, 9, 9]))
      = .error .unexpectedEof := by
  have h1 := scan_next_id_eof_behaviour simpleModel 1 [(1, [0])] [] (by decide)
  have h2 := scan_next_id_eof_behaviour simpleModel 1 [(1, [0])]
    [9, 9, 9, 9, 9, 9, 9, 9] (by decide)
  exact ⟨h1.1 (by decide), h2.2 (by decide) (by decide)⟩

/-- C6 counterexample: the index file `header ++ one complete record ++
three stray bytes` ends mid-record — the three trailing bytes are an
incomplete 8-byte id — yet `scan_next_id` succeeds with the count of the
preceding complete records plus one instead of failing with a
truncation/format error as the claim requires. -/
theorem scan_next_id_partial_id_not_error :
    FlatIndex.scan_next_id 1
        (header 1 ++ (encodeRecords simpleModel [(1, [0])] ++ [7, 7, 7]))
      = .ok 2 := by
  rw [FlatIndex.scan_next_id, (header_facts 1 _).2.2.2.1,
    scanLoop_encodeRecords_append simpleModel 1 [(1, [0])] [7, 7, 7] (by decide) 0,
    scanLoop_short 1 _ [7, 7, 7] (by decide)]
  rfl

/-- C10: `open_or_create` never modifies an existing counter sidecar — on
every success path the sidecar contents are preserved whenever the sidecar
was present, in both the create branch and the validate branch.
Consequently opening a path whose index file is absent but whose sidecar
holds `n` creates a fresh header-only index file while keeping the old
counter, and the first `append` to that empty store returns `n` rather
than 1. -/
theorem open_never_overwrites_counter (c : FloatModel) (dim n : Nat) (fs : FS)
    (v : List ℚ) (mb : List Nat) (hn : n < 2 ^ 64) (hv : v.length = dim) :
    (∀ st fs', fs.meta = some mb →
      FlatIndex.open_or_create dim fs = .ok (st, fs') → fs'.meta = some mb)
    ∧ FlatIndex.open_or_create dim ⟨none, some (encodeLE 8 n)⟩
        = .ok (⟨dim⟩, ⟨some (header dim), some (encodeLE 8 n)⟩)
    ∧ FlatIndex.append c ⟨dim⟩ ⟨some (header dim), some (encodeLE 8 n)⟩ v
        = .ok (n, ⟨some (header dim ++ recordBytes c n v),
            some (encodeLE 8 (n + 1))⟩) := by
  refine ⟨?_, ?_, ?_⟩
  · intro st fs' hmeta heq
    obtain ⟨fsi, fsm⟩ := fs
    simp only at hmeta
    subst hmeta
    cases fsi with
    | none =>
        dsimp only [FlatIndex.open_or_create] at heq
        rw [if_neg (by simp)] at heq
        simp only [Except.ok.injEq, Prod.mk.injEq] at heq
        obtain ⟨h1, h2⟩ := heq
        rw [← h2]
    | some bs =>
        dsimp only [FlatIndex.open_or_create] at heq
        split at heq
        · exact Except.noConfusion heq
        split at heq
        · exact Except.noConfusion heq
        split at heq
        · exact Except.noConfusion heq
        split at heq
        · exact Except.noConfusion heq
        split at heq
        · exact Except.noConfusion heq
        split at heq
        · exact Except.noConfusion heq
        simp only [Except.ok.injEq, Prod.mk.injEq] at heq
        obtain ⟨h1, h2⟩ := heq
        rw [← h2]
  · dsimp only [FlatIndex.open_or_create]
    rw [if_neg (by simp)]
  · exact append_ok c dim _ v hv rfl hn

theorem open_never_overwrites_counter_witness :
    FlatIndex.open_or_create 1 ⟨none, some (encodeLE 8 5)⟩
      = .ok (⟨1⟩, ⟨some (header 1), some (encodeLE 8 5)⟩)
    ∧ FlatIndex.append simpleModel ⟨1⟩ ⟨some (header 1), some (encodeLE 8 5)⟩ [3]
      = .ok (5, ⟨some (header 1 ++ recordBytes simpleModel 5 [3]),
          some (encodeLE 8 6)⟩) := by
  have h := open_never_overwrites_counter simpleModel 1 5 ⟨none, some (encodeLE 8 5)⟩
    [3] (encodeLE 8 5) (by decide) rfl
  exact ⟨h.2.1, h.2.2⟩

theorem runOps_from (c : FloatModel) (dim : Nat) (hdim : dim < 2 ^ 32) :
    ∀ (ops : List StoreOp) (n : Nat) (body : List Nat),
      (∀ v ∈ appendVecs ops, v.length = dim) →
      n + countAppends ops < 2 ^ 64 →
      ∃ body', runOps c dim ops ⟨some (header dim ++ body), some (encodeLE 8 n)⟩
        = .ok (List.range' n (countAppends ops),
            ⟨some (header dim ++ body'), some (encodeLE 8 (n + countAppends ops))⟩) := by
  intro ops
  induction ops with
  | nil =>
      intro n body hv hN
      exact ⟨body, by simp [runOps, countAppends, List.range']⟩
  | cons op ops ih =>
      cases op with
      | append v =>
          intro n body hv hN
          have hvl : v.length = dim := hv v (by simp [appendVecs])
          have hcnt : countAppends (StoreOp.append v :: ops) = countAppends ops + 1 := rfl
          rw [hcnt] at hN ⊢
          have hn64 : n < 2 ^ 64 := by omega
          have happ := append_ok c dim
            ⟨some (header dim ++ body), some (encodeLE 8 n)⟩ v hvl rfl hn64
          obtain ⟨body', hrec⟩ := ih (n + 1) (body ++ recordBytes c n v)
            (fun w hw => hv w (by simp [appendVecs, hw])) (by omega)
          refine ⟨body', ?_⟩
          simp only [runOps]
          rw [happ]
          dsimp only [Option.getD]
          rw [List.append_assoc, hrec]
          have harith : n + 1 + countAppends ops = n + (countAppends ops + 1) := by omega
          rw [harith, List.range'_succ]
      | reopen =>
          intro n body hv hN
          have hopen := open_existing_with_meta dim hdim body (encodeLE 8 n)
          simp only [runOps]
          rw [hopen]
          exact ih n body (fun w hw => hv w (by simp [appendVecs, hw]))
            (by simpa [countAppends] using hN)

/-- C3: starting from a freshly created store, any session of `N`
successful appends — arbitrarily interleaved with close/reopen steps
through `open_or_create` on the same path and dimension, which keep the
counter sidecar in sync — returns exactly the ids `1, 2, ..., N`
(`List.range' 1 N`) in call order. -/
theorem appends_return_sequential_ids (c : FloatModel) (dim : Nat)
    (ops : List StoreOp) (hdim : dim < 2 ^ 32)
    (hv : ∀ v ∈ appendVecs ops, v.length = dim)
    (hN : countAppends ops + 1 < 2 ^ 64) :
    ∃ fs', FlatIndex.open_or_create dim ⟨none, none⟩
        = .ok (⟨dim⟩, ⟨some (header dim), some (encodeLE 8 1)⟩)
      ∧ runOps c dim ops ⟨some (header dim), some (encodeLE 8 1)⟩
        = .ok (List.range' 1 (countAppends ops), fs') := by
  have hopen : FlatIndex.open_or_create dim ⟨none, none⟩
      = .ok (⟨dim⟩, ⟨some (header dim), some (encodeLE 8 1)⟩) := by
    dsimp only [FlatIndex.open_or_create]
    rw [if_pos rfl]
    rfl
  obtain ⟨body', hrec⟩ := runOps_from c dim hdim ops 1 [] hv (by omega)
  rw [List.append_nil] at hrec
  exact ⟨_, hopen, hrec⟩

theorem appends_return_sequential_ids_witness :
    ∃ fs', FlatIndex.open_or_create 1 ⟨none, none⟩
        = .ok (⟨1⟩, ⟨some (header 1), some (encodeLE 8 1)⟩)
      ∧ runOps simpleModel 1 [.append [5], .reopen, .append [6]]
          ⟨some (header 1), some (encodeLE 8 1)⟩
        = .ok ([1, 2], fs') := by
  have h := appends_return_sequential_ids simpleModel 1
    [.append [5], .reopen, .append [6]] (by decide) (by decide) (by decide)
  exact h
